import Mathlib

/-!
Shallow embedding of the hyperborealib repository pieces that the checked
claims concern:

* the filesystem-backed messages inbox
  (`src/drivers/server/messages_inbox/stored_queue.rs`),
* the address / URI parser (`src/address.rs`),
* the lookup verb dispatch of the server middleware
  (`src/rest_api/middleware/server.rs`),
* the `node::owned::Standard` key blob codec
  (`hyperborea/src/node/owned/standard.rs`),
* the signed response envelope used by `DisconnectResponse`
  (`src/rest_api/requests/disconnect/mod.rs`; the generic `Response` type it
  wraps is not part of the sources, so it is modelled from the spec).

Machine integers are modelled as `Nat` with explicit `% 2 ^ 64` reasoning
where the 8-byte big-endian encoding of a `u64` matters.  Filesystem state
for a single `(receiver, channel)` inbox folder is passed explicitly;
distinct folders are independent in the source (distinct paths), so the
claims about one `(receiver, channel)` pair are stated over one folder.
-/

namespace Hyperborealib

/-- Big-endian byte encoding of a `u64`, as in Rust's `u64::to_be_bytes`.
The argument is reduced modulo `2 ^ 64` by construction. -/
def u64ToBeBytes (n : Nat) : List Nat :=
  [n / 2 ^ 56 % 256, n / 2 ^ 48 % 256, n / 2 ^ 40 % 256, n / 2 ^ 32 % 256,
   n / 2 ^ 24 % 256, n / 2 ^ 16 % 256, n / 2 ^ 8 % 256, n % 256]

/-- Big-endian byte decoding, as in Rust's `u64::from_be_bytes`. -/
def u64FromBeBytes (l : List Nat) : Nat :=
  l.foldl (fun a b => a * 256 + b) 0

theorem u64ToBeBytes_length (n : Nat) : (u64ToBeBytes n).length = 8 := rfl

theorem u64FromBeBytes_u64ToBeBytes (n : Nat) (h : n < 2 ^ 64) :
    u64FromBeBytes (u64ToBeBytes n) = n := by
  simp only [u64ToBeBytes, u64FromBeBytes, List.foldl]
  omega

/-- Split a byte list into consecutive chunks of (at most) 8 bytes, as in
Rust's `slice::chunks(8)`. -/
def chunks8 (l : List Nat) : List (List Nat) :=
  if l = [] then [] else l.take 8 :: chunks8 (l.drop 8)
  termination_by l.length
  decreasing_by
    rename_i h
    have : 0 < l.length := List.length_pos.mpr h
    simp [List.length_drop]
    omega

theorem chunks8_nil : chunks8 [] = [] := by
  rw [chunks8]
  simp

theorem chunks8_block (b l : List Nat) (hb : b.length = 8) :
    chunks8 (b ++ l) = b :: chunks8 l := by
  rw [chunks8]
  have hne : b ++ l ≠ [] := by
    intro h
    have := congrArg List.length h
    simp [hb] at this
  rw [if_neg hne]
  have ht : (b ++ l).take 8 = b := by
    rw [← hb, List.take_left]
  have hd : (b ++ l).drop 8 = l := by
    rw [← hb, List.drop_left]
  rw [ht, hd]

section Inbox

variable {S M : Type}

/-- `MessageInfo` from `rest_api/types/message_info.rs`, generic over the
`Sender` and `Message` payload types, which the stored-queue inbox never
inspects. -/
structure MessageInfo (S M : Type) where
  sender : S
  channel : String
  message : M
  received_at : Nat
  deriving DecidableEq

/-- Contents of one message file in the inbox folder: either the
serde-JSON serialization of a `MessageInfo` (which deserializes back to
it) or bytes on which deserialization into `MessageInfo` fails. -/
inductive FileData (S M : Type) where
  | encoded (info : MessageInfo S M)
  | corrupt
  deriving DecidableEq

/-- The message files of one `(receiver, channel)` folder: an association
from message identifier (the decimal file name) to file contents. -/
def Files (S M : Type) : Type := List (Nat × FileData S M)

instance [DecidableEq S] [DecidableEq M] : DecidableEq (Files S M) :=
  inferInstanceAs (DecidableEq (List (Nat × FileData S M)))

/-- `tokio::fs::read` of a message file: first matching entry, if any. -/
def readFile : Files S M → Nat → Option (FileData S M)
  | [], _ => none
  | (k, fd) :: rest, id => if k = id then some fd else readFile rest id

/-- `tokio::fs::remove_file` of a message file. -/
def removeFile : Files S M → Nat → Files S M
  | [], _ => []
  | (k, fd) :: rest, id =>
    if k = id then removeFile rest id else (k, fd) :: removeFile rest id

/-- `tokio::fs::write` of a message file (truncates any existing file at
the same path). -/
def writeFile (files : Files S M) (id : Nat) (fd : FileData S M) : Files S M :=
  (id, fd) :: removeFile files id

/-- State of one `(receiver, channel)` inbox folder: the `index` file
(`none` when the file does not exist) and the message files. -/
structure InboxDir (S M : Type) where
  index : Option (List Nat)
  files : Files S M
  deriving DecidableEq

/-- A freshly created inbox folder: no `index` file, no message files. -/
def emptyDir : InboxDir S M := ⟨none, []⟩

/-- `StoredQueueMessagesInbox::add_message`, restricted to the folder of
the given `(receiver, channel)`.  `message_id` stands for the value drawn
from `safe_random_u64()` and `now` for `timestamp()`: both are inputs of
the model.  The index file is read (absent ⇒ empty), extended with the
8 big-endian id bytes, and written back; the message file is written with
the serialized `MessageInfo`. -/
def add_message (d : InboxDir S M) (sender : S) (channel : String)
    (message : M) (message_id : Nat) (now : Nat) : InboxDir S M :=
  let index := d.index.getD []
  let index := index ++ u64ToBeBytes message_id
  let info : MessageInfo S M := ⟨sender, channel, message, now⟩
  ⟨some index, writeFile d.files message_id (FileData.encoded info)⟩

/-- Result of the message-reading loop inside `poll_messages`: either a
JSON deserialization error propagated by `?`, or the collected messages
together with the final byte value of the `shift` cursor. -/
inductive LoopResult (S M : Type) where
  | jsonError
  | ok (messages : List (MessageInfo S M)) (shift : Nat)
  deriving DecidableEq

/-- The `for message_id in index.chunks(8)` loop of `poll_messages`,
operating on the already-decoded ids.  Returns the loop result together
with the message files as mutated so far (files are deleted as messages
are read; on a deserialization error the deletions already performed
remain). -/
def pollLoop : Files S M → List Nat → Nat → LoopResult S M × Files S M
  | files, [], _ => (.ok [] 0, files)
  | files, id :: rest, limit =>
    if limit = 0 then (.ok [] 0, files)
    else
      match readFile files id with
      | none =>
        match pollLoop files rest limit with
        | (.ok msgs shift, files') => (.ok msgs (shift + 8), files')
        | (.jsonError, files') => (.jsonError, files')
      | some fd =>
        match fd with
        | .corrupt => (.jsonError, files)
        | .encoded info =>
          match pollLoop (removeFile files id) rest (limit - 1) with
          | (.ok msgs shift, files') => (.ok (info :: msgs) (shift + 8), files')
          | (.jsonError, files') => (.jsonError, files')

/-- Outcome of one `poll_messages` call. -/
inductive PollResult (S M : Type) where
  /-- The `assert!(index.len() % 8 == 0)` failed. -/
  | assertFailed
  /-- A message file existed but its contents failed JSON
  deserialization into `MessageInfo`; the error is returned by `?`. -/
  | jsonError
  /-- Successful return `(messages, remaining)`. -/
  | ok (messages : List (MessageInfo S M)) (remaining : Nat)
  deriving DecidableEq

/-- `StoredQueueMessagesInbox::poll_messages`, restricted to the folder of
the given `(receiver, channel)`.  Returns the call's outcome and the
folder state afterwards.  When the index file is absent, returns
`([], 0)`.  Otherwise asserts the multiple-of-8 index length, walks the
8-byte id slots up to `limit` (defaulting to `u64::MAX`), skips slots
whose file is absent, deletes each file it reads, rewrites the index
truncated by `shift` bytes, and returns the messages together with
`new_index_len / 8`.  On a deserialization error the index file is not
rewritten. -/
def poll_messages (d : InboxDir S M) (limit : Option Nat) :
    PollResult S M × InboxDir S M :=
  match d.index with
  | none => (.ok [] 0, d)
  | some index =>
    if index.length % 8 = 0 then
      let ids := (chunks8 index).map u64FromBeBytes
      match pollLoop d.files ids (limit.getD (2 ^ 64 - 1)) with
      | (.ok msgs shift, files') =>
        let newIndex := index.drop shift
        (.ok msgs (newIndex.length / 8), ⟨some newIndex, files'⟩)
      | (.jsonError, files') => (.jsonError, ⟨some index, files'⟩)
    else
      (.assertFailed, d)

/-- The arguments of one `add_message` call on a fixed `(receiver, channel)`
folder, including the random id draw and the timestamp. -/
structure AddCall (S M : Type) where
  sender : S
  channel : String
  message : M
  id : Nat
  now : Nat
  deriving DecidableEq

/-- The `MessageInfo` record that `add_message` stores for this call. -/
def AddCall.info (a : AddCall S M) : MessageInfo S M :=
  ⟨a.sender, a.channel, a.message, a.now⟩

/-- Perform a sequence of `add_message` calls on one folder. -/
def addAll (d : InboxDir S M) (adds : List (AddCall S M)) : InboxDir S M :=
  adds.foldl (fun d a => add_message d a.sender a.channel a.message a.id a.now) d

/-- One inbox operation on a fixed `(receiver, channel)` folder. -/
inductive InboxOp (S M : Type) where
  | add (sender : S) (channel : String) (message : M) (id : Nat) (now : Nat)
  | poll (limit : Option Nat)

/-- State transition of one inbox operation (the state reached after the
call, whatever the call returned). -/
def applyOp (d : InboxDir S M) : InboxOp S M → InboxDir S M
  | .add s c m id now => add_message d s c m id now
  | .poll lim => (poll_messages d lim).2

/-- Keys (file names) present in a folder's message files. -/
def fileKeys (files : Files S M) : List Nat := files.map Prod.fst

/-- Remove several message files, in order. -/
def removeAll (files : Files S M) (ks : List Nat) : Files S M :=
  ks.foldl removeFile files

theorem readFile_removeFile (files : Files S M) (k j : Nat) :
    readFile (removeFile files k) j = if j = k then none else readFile files j := by
  induction files with
  | nil => simp [removeFile, readFile]
  | cons p rest ih =>
    obtain ⟨k', fd⟩ := p
    by_cases h1 : k' = k
    · subst h1
      by_cases hj : j = k'
      · subst hj
        simp [removeFile, readFile, ih]
      · simp [removeFile, readFile, ih, hj, Ne.symm hj]
    · by_cases hj : k' = j
      · subst hj
        have : ¬ (k' = k) := h1
        simp [removeFile, readFile, h1, this]
      · simp [removeFile, readFile, h1, hj, ih]

theorem readFile_writeFile_self (files : Files S M) (k : Nat) (fd : FileData S M) :
    readFile (writeFile files k fd) k = some fd := by
  simp [writeFile, readFile]

theorem readFile_writeFile_ne (files : Files S M) (k j : Nat) (fd : FileData S M)
    (h : j ≠ k) : readFile (writeFile files k fd) j = readFile files j := by
  simp [writeFile, readFile, Ne.symm h, readFile_removeFile, h]

theorem mem_fileKeys_removeFile (files : Files S M) (k j : Nat) :
    j ∈ fileKeys (removeFile files k) ↔ j ∈ fileKeys files ∧ j ≠ k := by
  induction files with
  | nil => simp [removeFile, fileKeys]
  | cons p rest ih =>
    obtain ⟨k', fd⟩ := p
    by_cases h1 : k' = k
    · subst h1
      have hr : removeFile ((k', fd) :: rest) k' = removeFile rest k' := by
        simp [removeFile]
      rw [hr, ih]
      have hk : j ∈ fileKeys ((k', fd) :: rest) ↔ j = k' ∨ j ∈ fileKeys rest := by
        simp [fileKeys]
      rw [hk]
      tauto
    · have hr : removeFile ((k', fd) :: rest) k = (k', fd) :: removeFile rest k := by
        simp [removeFile, h1]
      rw [hr]
      have hk : ∀ l : Files S M, ∀ q : Nat × FileData S M,
          j ∈ fileKeys (q :: l) ↔ j = q.1 ∨ j ∈ fileKeys l := by
        intro l q
        simp [fileKeys]
      rw [hk, hk, ih]
      have hne : j = k' → j ≠ k := fun hj => hj ▸ h1
      tauto

theorem readFile_removeAll_not_mem (ks : List Nat) (files : Files S M) (j : Nat)
    (h : j ∉ ks) : readFile (removeAll files ks) j = readFile files j := by
  induction ks generalizing files with
  | nil => rfl
  | cons k rest ih =>
    have hj : j ≠ k := fun hc => h (by simp [hc])
    have hrest : j ∉ rest := fun hc => h (by simp [hc])
    show readFile (removeAll (removeFile files k) rest) j = _
    rw [ih (removeFile files k) hrest, readFile_removeFile, if_neg hj]

theorem removeAll_eq_nil (ks : List Nat) (files : Files S M)
    (h : ∀ j ∈ fileKeys files, j ∈ ks) : removeAll files ks = [] := by
  induction ks generalizing files with
  | nil =>
    cases files with
    | nil => rfl
    | cons p rest => exact absurd (h p.1 (by simp [fileKeys])) (by simp)
  | cons k rest ih =>
    show removeAll (removeFile files k) rest = []
    refine ih _ (fun j hj => ?_)
    have hm := (mem_fileKeys_removeFile files k j).mp hj
    rcases List.mem_cons.mp (h j hm.1) with h' | h'
    · exact absurd h' hm.2
    · exact h'

/-- Behaviour of the polling loop over a list of index entries whose keys
are distinct and whose message files are all present and well-formed: it
delivers the first `limit` entries in order, advances the shift cursor by
8 bytes per delivered entry, and deletes exactly the delivered files. -/
theorem pollLoop_spec (ents : List (Nat × MessageInfo S M)) (files : Files S M)
    (limit : Nat)
    (hnd : (ents.map Prod.fst).Nodup)
    (hpres : ∀ p ∈ ents, readFile files p.1 = some (.encoded p.2)) :
    pollLoop files (ents.map Prod.fst) limit
      = (.ok ((ents.take limit).map Prod.snd) (8 * (ents.take limit).length),
         removeAll files ((ents.take limit).map Prod.fst)) := by
  induction ents generalizing files limit with
  | nil => simp [pollLoop, removeAll]
  | cons p rest ih =>
    obtain ⟨k, mi⟩ := p
    match limit with
    | 0 => simp [pollLoop, removeAll]
    | l + 1 =>
      have hk : readFile files k = some (.encoded mi) := hpres (k, mi) (by simp)
      have hcons : ((k, mi) :: rest).map Prod.fst = k :: rest.map Prod.fst := rfl
      rw [hcons] at hnd
      have hknotin : k ∉ rest.map Prod.fst := (List.nodup_cons.mp hnd).1
      have hndr : (rest.map Prod.fst).Nodup := (List.nodup_cons.mp hnd).2
      have hpres' : ∀ p ∈ rest,
          readFile (removeFile files k) p.1 = some (.encoded p.2) := by
        intro p hp
        rw [readFile_removeFile, if_neg]
        · exact hpres p (List.mem_cons_of_mem _ hp)
        · intro hc
          exact hknotin (hc ▸ List.mem_map_of_mem Prod.fst hp)
      rw [hcons]
      rw [show pollLoop files (k :: rest.map Prod.fst) (l + 1)
            = (match readFile files k with
               | none =>
                 match pollLoop files (rest.map Prod.fst) (l + 1) with
                 | (.ok msgs shift, files') => (.ok msgs (shift + 8), files')
                 | (.jsonError, files') => (.jsonError, files')
               | some fd =>
                 match fd with
                 | .corrupt => (.jsonError, files)
                 | .encoded info =>
                   match pollLoop (removeFile files k) (rest.map Prod.fst) (l + 1 - 1) with
                   | (.ok msgs shift, files') => (.ok (info :: msgs) (shift + 8), files')
                   | (.jsonError, files') => (.jsonError, files')) from by
        rw [pollLoop, if_neg (Nat.succ_ne_zero l)]]
      rw [hk]
      simp only [Nat.add_sub_cancel]
      rw [ih (removeFile files k) l hndr hpres']
      simp only [List.take_succ_cons, List.map_cons, List.length_cons, Nat.mul_succ]
      rfl

/-- The `index` file contents describing a list of `(id, info)` entries:
the concatenation of the 8-byte big-endian ids, in order. -/
def entsIndex (ents : List (Nat × MessageInfo S M)) : List Nat :=
  (ents.map (fun p => u64ToBeBytes p.1)).flatten

theorem entsIndex_cons (p : Nat × MessageInfo S M)
    (ents : List (Nat × MessageInfo S M)) :
    entsIndex (p :: ents) = u64ToBeBytes p.1 ++ entsIndex ents := by
  simp [entsIndex]

theorem entsIndex_length (ents : List (Nat × MessageInfo S M)) :
    (entsIndex ents).length = 8 * ents.length := by
  induction ents with
  | nil => rfl
  | cons p rest ih =>
    rw [entsIndex_cons]
    simp [ih, u64ToBeBytes_length, Nat.mul_succ]
    omega

theorem chunks8_entsIndex (ents : List (Nat × MessageInfo S M))
    (h : ∀ p ∈ ents, p.1 < 2 ^ 64) :
    (chunks8 (entsIndex ents)).map u64FromBeBytes = ents.map Prod.fst := by
  induction ents with
  | nil => simp [entsIndex, chunks8_nil]
  | cons p rest ih =>
    rw [entsIndex_cons, chunks8_block _ _ (u64ToBeBytes_length p.1)]
    simp only [List.map_cons]
    rw [u64FromBeBytes_u64ToBeBytes p.1 (h p (by simp)),
        ih (fun q hq => h q (List.mem_cons_of_mem _ hq))]

theorem entsIndex_drop (ents : List (Nat × MessageInfo S M)) (n : Nat) :
    (entsIndex ents).drop (8 * n) = entsIndex (ents.drop n) := by
  induction ents generalizing n with
  | nil => simp [entsIndex]
  | cons p rest ih =>
    match n with
    | 0 => simp
    | m + 1 =>
      rw [entsIndex_cons, List.drop_succ_cons]
      have h8 : 8 * (m + 1) = 8 + 8 * m := by omega
      rw [h8, ← List.drop_drop]
      have hd : (u64ToBeBytes p.1 ++ entsIndex rest).drop 8 = entsIndex rest := by
        rw [show (8 : Nat) = (u64ToBeBytes p.1).length from (u64ToBeBytes_length p.1).symm,
            List.drop_left]
      rw [hd, ih]

/-- Full behaviour of `poll_messages` on a folder whose index lists `ents`
with pairwise-distinct in-range ids and whose files are all present and
well-formed: writing `L` for the effective limit, it returns the first `L`
infos in order with `remaining = n - L`, truncates the index past the
delivered slots, and deletes exactly the delivered files. -/
theorem poll_spec (ents : List (Nat × MessageInfo S M)) (files : Files S M)
    (limit : Option Nat)
    (hnd : (ents.map Prod.fst).Nodup)
    (hbound : ∀ p ∈ ents, p.1 < 2 ^ 64)
    (hpres : ∀ p ∈ ents, readFile files p.1 = some (.encoded p.2)) :
    poll_messages ⟨some (entsIndex ents), files⟩ limit
      = (.ok ((ents.take (limit.getD (2 ^ 64 - 1))).map Prod.snd)
             (ents.length - limit.getD (2 ^ 64 - 1)),
         ⟨some (entsIndex (ents.drop (limit.getD (2 ^ 64 - 1)))),
          removeAll files ((ents.take (limit.getD (2 ^ 64 - 1))).map Prod.fst)⟩) := by
  set L := limit.getD (2 ^ 64 - 1) with hL
  have hmod : (entsIndex ents).length % 8 = 0 := by
    rw [entsIndex_length]
    omega
  have htl : (ents.take L).length = min L ents.length := List.length_take L ents
  have hdropmin : ents.drop (min L ents.length) = ents.drop L := by
    rcases le_total L ents.length with h | h
    · rw [min_eq_left h]
    · rw [min_eq_right h, List.drop_eq_nil_of_le h, List.drop_length]
  rw [poll_messages]
  simp only [if_pos hmod]
  rw [chunks8_entsIndex ents hbound, pollLoop_spec ents files L hnd hpres]
  simp only
  rw [htl, entsIndex_drop, hdropmin]
  have hrem : (entsIndex (ents.drop L)).length / 8 = ents.length - L := by
    rw [entsIndex_length, List.length_drop]
    omega
  rw [hrem]

/-- The ids drawn by a sequence of `add_message` calls. -/
def idsOf (adds : List (AddCall S M)) : List Nat := adds.map (fun a => a.id)

/-- The `(id, info)` entries created by a sequence of `add_message` calls. -/
def entsOf (adds : List (AddCall S M)) : List (Nat × MessageInfo S M) :=
  adds.map (fun a => (a.id, a.info))

theorem addAll_files (adds : List (AddCall S M)) (d : InboxDir S M) :
    (addAll d adds).files
      = adds.foldl (fun fs a => writeFile fs a.id (.encoded a.info)) d.files := by
  induction adds generalizing d with
  | nil => rfl
  | cons a as ih => exact ih _

theorem addAll_index (adds : List (AddCall S M)) (d : InboxDir S M)
    (h : adds ≠ []) :
    (addAll d adds).index = some (d.index.getD [] ++ entsIndex (entsOf adds)) := by
  induction adds generalizing d with
  | nil => exact absurd rfl h
  | cons a as ih =>
    show (addAll (add_message d a.sender a.channel a.message a.id a.now) as).index = _
    by_cases has : as = []
    · subst has
      show (add_message d a.sender a.channel a.message a.id a.now).index = _
      simp [add_message, entsOf, entsIndex, AddCall.info]
    · rw [ih _ has]
      show some ((d.index.getD [] ++ u64ToBeBytes a.id) ++ entsIndex (entsOf as)) = _
      rw [show entsOf (a :: as) = (a.id, a.info) :: entsOf as from rfl, entsIndex_cons,
          List.append_assoc]

theorem readFile_foldl_write_not_mem (adds : List (AddCall S M))
    (fs : Files S M) (k : Nat) (h : k ∉ idsOf adds) :
    readFile (adds.foldl (fun fs a => writeFile fs a.id (.encoded a.info)) fs) k
      = readFile fs k := by
  induction adds generalizing fs with
  | nil => rfl
  | cons a as ih =>
    have hk : k ≠ a.id := fun hc => h (by simp [idsOf, hc])
    have has : k ∉ idsOf as := fun hc => h (by simp [idsOf] at hc ⊢; exact Or.inr hc)
    show readFile (as.foldl _ (writeFile fs a.id (.encoded a.info))) k = _
    rw [ih _ has, readFile_writeFile_ne _ _ _ _ hk]

theorem readFile_foldl_write (adds : List (AddCall S M)) (fs : Files S M)
    (hnd : (idsOf adds).Nodup) :
    ∀ p ∈ entsOf adds,
      readFile (adds.foldl (fun fs a => writeFile fs a.id (.encoded a.info)) fs) p.1
        = some (.encoded p.2) := by
  induction adds generalizing fs with
  | nil => intro p hp; simp [entsOf] at hp
  | cons a as ih =>
    have hnotin : a.id ∉ idsOf as := by
      have := hnd
      rw [show idsOf (a :: as) = a.id :: idsOf as from rfl] at this
      exact (List.nodup_cons.mp this).1
    have hndtl : (idsOf as).Nodup := by
      have := hnd
      rw [show idsOf (a :: as) = a.id :: idsOf as from rfl] at this
      exact (List.nodup_cons.mp this).2
    intro p hp
    rw [show entsOf (a :: as) = (a.id, a.info) :: entsOf as from rfl] at hp
    rcases List.mem_cons.mp hp with hp | hp
    · subst hp
      show readFile (as.foldl _ (writeFile fs a.id (.encoded a.info))) a.id
        = some (.encoded a.info)
      rw [readFile_foldl_write_not_mem as _ a.id hnotin, readFile_writeFile_self]
    · exact ih (writeFile fs a.id (.encoded a.info)) hndtl p hp

theorem fileKeys_foldl_write (adds : List (AddCall S M)) (fs : Files S M)
    (k : Nat)
    (h : k ∈ fileKeys (adds.foldl (fun fs a => writeFile fs a.id (.encoded a.info)) fs)) :
    k ∈ fileKeys fs ∨ k ∈ idsOf adds := by
  induction adds generalizing fs with
  | nil => exact Or.inl h
  | cons a as ih =>
    rcases ih (writeFile fs a.id (.encoded a.info)) h with h' | h'
    · rw [show fileKeys (writeFile fs a.id (.encoded a.info))
            = a.id :: fileKeys (removeFile fs a.id) from rfl] at h'
      rcases List.mem_cons.mp h' with h'' | h''
      · exact Or.inr (by simp [idsOf, h''])
      · exact Or.inl ((mem_fileKeys_removeFile fs a.id k).mp h'').1
    · exact Or.inr (by simp [idsOf] at h' ⊢; exact Or.inr h')

theorem entsOf_map_fst (adds : List (AddCall S M)) :
    (entsOf adds).map Prod.fst = idsOf adds := by
  simp [entsOf, idsOf, List.map_map, Function.comp]

theorem entsOf_map_snd (adds : List (AddCall S M)) :
    (entsOf adds).map Prod.snd = adds.map AddCall.info := by
  simp [entsOf, List.map_map, Function.comp]

theorem addAll_emptyDir (adds : List (AddCall S M)) (h : adds ≠ []) :
    addAll emptyDir adds
      = ⟨some (entsIndex (entsOf adds)),
         adds.foldl (fun fs a => writeFile fs a.id (.encoded a.info)) []⟩ := by
  have hi := addAll_index adds emptyDir h
  have hf := addAll_files adds emptyDir
  have heta : addAll emptyDir adds
      = ⟨(addAll emptyDir adds).index, (addAll emptyDir adds).files⟩ := rfl
  rw [heta, hi, hf]
  rfl

/-- C1: starting from an empty inbox folder, after `n` `add_message` calls
with pairwise-distinct random ids, a single `poll_messages(..., None)`
returns exactly the stored `MessageInfo` records in insertion order with
`remaining == 0`, and leaves the folder with no message files and an empty
index. -/
theorem stored_queue_drain (adds : List (AddCall S M))
    (hnd : (idsOf adds).Nodup)
    (hbound : ∀ a ∈ adds, a.id < 2 ^ 64)
    (hlen : adds.length < 2 ^ 64) :
    (poll_messages (addAll emptyDir adds) none).1
        = .ok (adds.map AddCall.info) 0
    ∧ (poll_messages (addAll emptyDir adds) none).2.files = []
    ∧ (poll_messages (addAll emptyDir adds) none).2.index.getD [] = [] := by
  by_cases hadds : adds = []
  · subst hadds
    exact ⟨rfl, rfl, rfl⟩
  · rw [addAll_emptyDir adds hadds]
    have hnd' : ((entsOf adds).map Prod.fst).Nodup := by
      rw [entsOf_map_fst]; exact hnd
    have hbound' : ∀ p ∈ entsOf adds, p.1 < 2 ^ 64 := by
      intro p hp
      obtain ⟨a, ha, rfl⟩ := List.mem_map.mp hp
      exact hbound a ha
    have hpres' := readFile_foldl_write adds [] hnd
    have hspec := poll_spec (entsOf adds) _ none hnd' hbound' hpres'
    have hlen' : (entsOf adds).length = adds.length := List.length_map adds _
    have hLe : (entsOf adds).length ≤ (none : Option Nat).getD (2 ^ 64 - 1) := by
      simp only [Option.getD_none]
      omega
    rw [hspec]
    rw [List.take_of_length_le hLe, List.drop_eq_nil_of_le hLe]
    have hrem : (entsOf adds).length - (none : Option Nat).getD (2 ^ 64 - 1) = 0 := by
      simp only [Option.getD_none]
      omega
    have hempty : removeAll
        (adds.foldl (fun fs a => writeFile fs a.id (.encoded a.info)) [])
        ((entsOf adds).map Prod.fst) = [] := by
      refine removeAll_eq_nil _ _ (fun j hj => ?_)
      rcases fileKeys_foldl_write adds [] j hj with h' | h'
      · exact absurd h' (by simp [fileKeys])
      · rw [entsOf_map_fst]; exact h'
    rw [hrem, hempty, entsOf_map_snd]
    refine ⟨rfl, rfl, ?_⟩
    simp [entsIndex]

/-- Closed instance of C1: two adds on one folder, polled with `None`. -/
theorem stored_queue_drain_witness :
    (poll_messages (addAll emptyDir
        [(⟨0, "alpha", 10, 1, 100⟩ : AddCall Nat Nat), ⟨0, "alpha", 20, 2, 101⟩])
        none).1
      = .ok [⟨0, "alpha", 10, 100⟩, ⟨0, "alpha", 20, 101⟩] 0
    ∧ (poll_messages (addAll emptyDir
        [(⟨0, "alpha", 10, 1, 100⟩ : AddCall Nat Nat), ⟨0, "alpha", 20, 2, 101⟩])
        none).2.files = []
    ∧ (poll_messages (addAll emptyDir
        [(⟨0, "alpha", 10, 1, 100⟩ : AddCall Nat Nat), ⟨0, "alpha", 20, 2, 101⟩])
        none).2.index.getD [] = [] := by
  exact stored_queue_drain
    [⟨0, "alpha", 10, 1, 100⟩, ⟨0, "alpha", 20, 2, 101⟩]
    (by decide) (by decide) (by decide)

/-- C2: on a folder whose index lists `n` entries with distinct in-range
ids and all message files present, `poll_messages` with `limit = Some k`,
`k < n`, returns the first `k` infos in insertion order with
`remaining == n - k`, and a subsequent `poll_messages(..., None)` returns
the remaining `n - k` infos in order with `remaining == 0`. -/
theorem stored_queue_partial_poll (ents : List (Nat × MessageInfo S M))
    (files : Files S M) (k : Nat)
    (hnd : (ents.map Prod.fst).Nodup)
    (hbound : ∀ p ∈ ents, p.1 < 2 ^ 64)
    (hpres : ∀ p ∈ ents, readFile files p.1 = some (.encoded p.2))
    (hk : k < ents.length)
    (hn : ents.length < 2 ^ 64) :
    (poll_messages ⟨some (entsIndex ents), files⟩ (some k)).1
        = .ok ((ents.take k).map Prod.snd) (ents.length - k)
    ∧ (poll_messages
        (poll_messages ⟨some (entsIndex ents), files⟩ (some k)).2 none).1
        = .ok ((ents.drop k).map Prod.snd) 0 := by
  have h1 := poll_spec ents files (some k) hnd hbound hpres
  simp only [Option.getD_some] at h1
  constructor
  · rw [h1]
  · rw [h1]
    have hnd2 : ((ents.drop k).map Prod.fst).Nodup := by
      rw [List.map_drop]
      exact List.Nodup.sublist (List.drop_sublist k _) hnd
    have hbound2 : ∀ p ∈ ents.drop k, p.1 < 2 ^ 64 :=
      fun p hp => hbound p (List.mem_of_mem_drop hp)
    have hdisj : ((ents.map Prod.fst).take k).Disjoint ((ents.map Prod.fst).drop k) := by
      have hnda : (((ents.map Prod.fst).take k) ++ ((ents.map Prod.fst).drop k)).Nodup := by
        rw [List.take_append_drop]
        exact hnd
      exact ((List.nodup_append).mp hnda).2.2
    have hpres2 : ∀ p ∈ ents.drop k,
        readFile (removeAll files ((ents.take k).map Prod.fst)) p.1
          = some (.encoded p.2) := by
      intro p hp
      have hmem : p.1 ∈ (ents.map Prod.fst).drop k := by
        rw [← List.map_drop]
        exact List.mem_map_of_mem Prod.fst hp
      have hnotin : p.1 ∉ (ents.take k).map Prod.fst := by
        rw [List.map_take]
        exact fun hc => hdisj.symm hmem hc
      rw [readFile_removeAll_not_mem _ _ _ hnotin]
      exact hpres p (List.mem_of_mem_drop hp)
    have h2 := poll_spec (ents.drop k) _ none hnd2 hbound2 hpres2
    rw [h2]
    have hLe : (ents.drop k).length ≤ (none : Option Nat).getD (2 ^ 64 - 1) := by
      simp only [Option.getD_none, List.length_drop]
      omega
    rw [List.take_of_length_le hLe]
    have hrem : (ents.drop k).length - (none : Option Nat).getD (2 ^ 64 - 1) = 0 := by
      simp only [Option.getD_none, List.length_drop]
      omega
    rw [hrem]

/-- Closed instance of C2: three entries, polled with `Some 1` then `None`. -/
theorem stored_queue_partial_poll_witness :
    (poll_messages (⟨some (entsIndex
        [((1 : Nat), (⟨0, "c", 10, 100⟩ : MessageInfo Nat Nat)),
         (2, ⟨0, "c", 20, 101⟩), (3, ⟨0, "c", 30, 102⟩)]),
        [((1 : Nat), FileData.encoded (⟨0, "c", 10, 100⟩ : MessageInfo Nat Nat)),
         (2, .encoded ⟨0, "c", 20, 101⟩), (3, .encoded ⟨0, "c", 30, 102⟩)]⟩ :
        InboxDir Nat Nat) (some 1)).1
      = .ok [⟨0, "c", 10, 100⟩] 2
    ∧ (poll_messages
        (poll_messages (⟨some (entsIndex
          [((1 : Nat), (⟨0, "c", 10, 100⟩ : MessageInfo Nat Nat)),
           (2, ⟨0, "c", 20, 101⟩), (3, ⟨0, "c", 30, 102⟩)]),
          [((1 : Nat), FileData.encoded (⟨0, "c", 10, 100⟩ : MessageInfo Nat Nat)),
           (2, .encoded ⟨0, "c", 20, 101⟩), (3, .encoded ⟨0, "c", 30, 102⟩)]⟩ :
          InboxDir Nat Nat) (some 1)).2 none).1
      = .ok [⟨0, "c", 20, 101⟩, ⟨0, "c", 30, 102⟩] 0 := by
  exact stored_queue_partial_poll
    [(1, ⟨0, "c", 10, 100⟩), (2, ⟨0, "c", 20, 101⟩), (3, ⟨0, "c", 30, 102⟩)]
    [(1, .encoded ⟨0, "c", 10, 100⟩), (2, .encoded ⟨0, "c", 20, 101⟩),
     (3, .encoded ⟨0, "c", 30, 102⟩)]
    1 (by decide) (by decide) (by decide) (by decide) (by decide)

/-- C5: during `poll_messages`, an index entry whose message file is
absent is skipped without error: the call behaves exactly as if the entry
were not in the index (same outcome, same message files), and on success
the rewritten index omits the skipped slot — so the skipped entry neither
consumes the caller's limit nor counts toward `remaining`. -/
theorem stored_queue_skip_missing (k : Nat) (rest : List Nat)
    (files : Files S M) (limit : Option Nat)
    (hk : k < 2 ^ 64)
    (habsent : readFile files k = none)
    (hrest : rest.length % 8 = 0)
    (hlim : limit.getD (2 ^ 64 - 1) ≠ 0) :
    (poll_messages ⟨some (u64ToBeBytes k ++ rest), files⟩ limit).1
        = (poll_messages ⟨some rest, files⟩ limit).1
    ∧ (poll_messages ⟨some (u64ToBeBytes k ++ rest), files⟩ limit).2.files
        = (poll_messages ⟨some rest, files⟩ limit).2.files
    ∧ (∀ msgs rem,
        (poll_messages ⟨some (u64ToBeBytes k ++ rest), files⟩ limit).1
          = .ok msgs rem →
        (poll_messages ⟨some (u64ToBeBytes k ++ rest), files⟩ limit).2
          = (poll_messages ⟨some rest, files⟩ limit).2) := by
  have hmodfull : (u64ToBeBytes k ++ rest).length % 8 = 0 := by
    rw [List.length_append, u64ToBeBytes_length]
    omega
  have hids : (chunks8 (u64ToBeBytes k ++ rest)).map u64FromBeBytes
      = k :: (chunks8 rest).map u64FromBeBytes := by
    rw [chunks8_block _ _ (u64ToBeBytes_length k), List.map_cons,
        u64FromBeBytes_u64ToBeBytes k hk]
  have hdropeq : ∀ s : Nat, (u64ToBeBytes k ++ rest).drop (s + 8) = rest.drop s := by
    intro s
    rw [Nat.add_comm, ← List.drop_drop,
        show (8 : Nat) = (u64ToBeBytes k).length from rfl, List.drop_left]
  rcases hplr : pollLoop files ((chunks8 rest).map u64FromBeBytes)
      (limit.getD (2 ^ 64 - 1)) with ⟨r, fs'⟩
  cases r with
  | jsonError =>
    have hstep : pollLoop files (k :: (chunks8 rest).map u64FromBeBytes)
        (limit.getD (2 ^ 64 - 1)) = (.jsonError, fs') := by
      rw [pollLoop, if_neg hlim, habsent, hplr]
    have hsub : poll_messages ⟨some rest, files⟩ limit
        = (.jsonError, ⟨some rest, fs'⟩) := by
      simp only [poll_messages]
      rw [if_pos hrest, hplr]
    have hfull : poll_messages ⟨some (u64ToBeBytes k ++ rest), files⟩ limit
        = (.jsonError, ⟨some (u64ToBeBytes k ++ rest), fs'⟩) := by
      simp only [poll_messages]
      rw [if_pos hmodfull, hids, hstep]
    rw [hfull, hsub]
    refine ⟨rfl, rfl, fun msgs rem hcontra => ?_⟩
    exact absurd hcontra (by simp)
  | ok msgs shift =>
    have hstep : pollLoop files (k :: (chunks8 rest).map u64FromBeBytes)
        (limit.getD (2 ^ 64 - 1)) = (.ok msgs (shift + 8), fs') := by
      rw [pollLoop, if_neg hlim, habsent, hplr]
    have hsub : poll_messages ⟨some rest, files⟩ limit
        = (.ok msgs ((rest.drop shift).length / 8), ⟨some (rest.drop shift), fs'⟩) := by
      simp only [poll_messages]
      rw [if_pos hrest, hplr]
    have hfull : poll_messages ⟨some (u64ToBeBytes k ++ rest), files⟩ limit
        = (.ok msgs ((rest.drop shift).length / 8),
           ⟨some (rest.drop shift), fs'⟩) := by
      simp only [poll_messages]
      rw [if_pos hmodfull, hids, hstep]
      simp only [hdropeq shift]
    rw [hfull, hsub]
    exact ⟨rfl, rfl, fun _ _ _ => rfl⟩

/-- Closed instance of C5: index `[5, 1]`, file for id 5 absent. -/
theorem stored_queue_skip_missing_witness :
    (poll_messages (⟨some (u64ToBeBytes 5 ++ u64ToBeBytes 1),
        [((1 : Nat), FileData.encoded (⟨0, "c", 10, 100⟩ : MessageInfo Nat Nat))]⟩ :
        InboxDir Nat Nat) none).1
      = (poll_messages (⟨some (u64ToBeBytes 1),
          [((1 : Nat), FileData.encoded (⟨0, "c", 10, 100⟩ : MessageInfo Nat Nat))]⟩ :
          InboxDir Nat Nat) none).1
    ∧ (poll_messages (⟨some (u64ToBeBytes 5 ++ u64ToBeBytes 1),
        [((1 : Nat), FileData.encoded (⟨0, "c", 10, 100⟩ : MessageInfo Nat Nat))]⟩ :
        InboxDir Nat Nat) none).2.files
      = (poll_messages (⟨some (u64ToBeBytes 1),
          [((1 : Nat), FileData.encoded (⟨0, "c", 10, 100⟩ : MessageInfo Nat Nat))]⟩ :
          InboxDir Nat Nat) none).2.files
    ∧ (∀ msgs rem,
        (poll_messages (⟨some (u64ToBeBytes 5 ++ u64ToBeBytes 1),
          [((1 : Nat), FileData.encoded (⟨0, "c", 10, 100⟩ : MessageInfo Nat Nat))]⟩ :
          InboxDir Nat Nat) none).1 = .ok msgs rem →
        (poll_messages (⟨some (u64ToBeBytes 5 ++ u64ToBeBytes 1),
          [((1 : Nat), FileData.encoded (⟨0, "c", 10, 100⟩ : MessageInfo Nat Nat))]⟩ :
          InboxDir Nat Nat) none).2
          = (poll_messages (⟨some (u64ToBeBytes 1),
              [((1 : Nat), FileData.encoded (⟨0, "c", 10, 100⟩ : MessageInfo Nat Nat))]⟩ :
              InboxDir Nat Nat) none).2) := by
  exact stored_queue_skip_missing 5 (u64ToBeBytes 1)
    [(1, .encoded ⟨0, "c", 10, 100⟩)] none
    (by decide) (by decide) (by decide) (by decide)

/-- The shift cursor of a successful polling loop is a multiple of 8. -/
theorem pollLoop_shift_mod (ids : List Nat) :
    ∀ (files : Files S M) (limit : Nat) (msgs : List (MessageInfo S M))
      (s : Nat) (fs' : Files S M),
      pollLoop files ids limit = (.ok msgs s, fs') → s % 8 = 0 := by
  induction ids with
  | nil =>
    intro files limit msgs s fs' h
    rw [pollLoop] at h
    simp only [Prod.mk.injEq, LoopResult.ok.injEq] at h
    omega
  | cons id rest ih =>
    intro files limit msgs s fs' h
    rw [pollLoop] at h
    by_cases hl : limit = 0
    · rw [if_pos hl] at h
      simp only [Prod.mk.injEq, LoopResult.ok.injEq] at h
      omega
    · rw [if_neg hl] at h
      cases hrf : readFile files id with
      | none =>
        rw [hrf] at h
        rcases hr : pollLoop files rest limit with ⟨r, f⟩
        rw [hr] at h
        cases r with
        | ok m s' =>
          simp only [Prod.mk.injEq, LoopResult.ok.injEq] at h
          have := ih files limit m s' f hr
          omega
        | jsonError => simp at h
      | some fd =>
        rw [hrf] at h
        cases fd with
        | corrupt => simp at h
        | encoded info =>
          rcases hr : pollLoop (removeFile files id) rest (limit - 1) with ⟨r, f⟩
          rw [hr] at h
          cases r with
          | ok m s' =>
            simp only [Prod.mk.injEq, LoopResult.ok.injEq] at h
            have := ih (removeFile files id) (limit - 1) m s' f hr
            omega
          | jsonError => simp at h

/-- Invariant (iii) of the spec: when the folder's index file exists, its
length is a multiple of 8 bytes. -/
def indexAligned (d : InboxDir S M) : Prop :=
  ∀ idx, d.index = some idx → idx.length % 8 = 0

theorem indexAligned_applyOp (d : InboxDir S M) (op : InboxOp S M)
    (h : indexAligned d) : indexAligned (applyOp d op) := by
  cases op with
  | add s c m id now =>
    intro idx hidx
    simp only [applyOp, add_message] at hidx
    have hidx' : d.index.getD [] ++ u64ToBeBytes id = idx := by
      injection hidx
    rw [← hidx', List.length_append, u64ToBeBytes_length]
    cases hd : d.index with
    | none => simp [hd]
    | some idx0 =>
      have := h idx0 hd
      simp [hd]
      omega
  | poll lim =>
    obtain ⟨di, df⟩ := d
    cases di with
    | none =>
      intro idx hidx
      simp only [applyOp, poll_messages] at hidx
      exact absurd hidx (by simp)
    | some idx0 =>
      have halign := h idx0 rfl
      intro idx hidx
      simp only [applyOp, poll_messages, if_pos halign] at hidx
      rcases hr : pollLoop df ((chunks8 idx0).map u64FromBeBytes)
          (lim.getD (2 ^ 64 - 1)) with ⟨r, f⟩
      rw [hr] at hidx
      cases r with
      | ok m s =>
        simp only [Option.some.injEq] at hidx
        have hs := pollLoop_shift_mod _ df _ m s f hr
        rw [← hidx, List.length_drop]
        omega
      | jsonError =>
        simp only [Option.some.injEq] at hidx
        rw [← hidx]
        exact halign

theorem poll_no_assertFailed (d : InboxDir S M) (h : indexAligned d)
    (lim : Option Nat) : (poll_messages d lim).1 ≠ PollResult.assertFailed := by
  obtain ⟨di, df⟩ := d
  cases di with
  | none => simp [poll_messages]
  | some idx0 =>
    have halign := h idx0 rfl
    simp only [poll_messages, if_pos halign]
    rcases hr : pollLoop df ((chunks8 idx0).map u64FromBeBytes)
        (lim.getD (2 ^ 64 - 1)) with ⟨r, f⟩
    cases r <;> simp

/-- C8: starting from an empty folder, every sequence of `add_message` and
`poll_messages` operations keeps the index file length a multiple of 8
bytes, so the multiple-of-8 assertion performed when `poll_messages` loads
the index never fails. -/
theorem stored_queue_assert_never_fails (ops : List (InboxOp S M)) :
    indexAligned (ops.foldl applyOp emptyDir)
    ∧ ∀ lim, (poll_messages (ops.foldl applyOp emptyDir) lim).1
        ≠ PollResult.assertFailed := by
  have hbase : indexAligned (emptyDir : InboxDir S M) := by
    intro idx h
    exact absurd h (by simp [emptyDir])
  have hfold : ∀ (l : List (InboxOp S M)) (d : InboxDir S M),
      indexAligned d → indexAligned (l.foldl applyOp d) := by
    intro l
    induction l with
    | nil => exact fun d h => h
    | cons op rest ih => exact fun d h => ih _ (indexAligned_applyOp d op h)
  have hal := hfold ops emptyDir hbase
  exact ⟨hal, fun lim => poll_no_assertFailed _ hal lim⟩

/-- Closed instance of C8: an add, a partial poll, and another add. -/
theorem stored_queue_assert_never_fails_witness :
    indexAligned ([InboxOp.add 0 "c" 10 1 100, InboxOp.poll (some 1),
        InboxOp.add 0 "c" 20 2 101].foldl applyOp (emptyDir : InboxDir Nat Nat))
    ∧ ∀ lim, (poll_messages ([InboxOp.add 0 "c" 10 1 100, InboxOp.poll (some 1),
        InboxOp.add 0 "c" 20 2 101].foldl applyOp (emptyDir : InboxDir Nat Nat))
        lim).1 ≠ PollResult.assertFailed := by
  exact stored_queue_assert_never_fails
    [InboxOp.add 0 "c" 10 1 100, InboxOp.poll (some 1), InboxOp.add 0 "c" 20 2 101]

/-- C9: `poll_messages` is not atomic on error.  With an index listing a
well-formed message followed by one whose file contents fail JSON
deserialization, the call returns an error after the first message file
has already been deleted and without rewriting the index; the first
message is not returned, and a subsequent poll (which skips the
now-fileless first slot) errors on the corrupt entry again, so the first
message is never delivered. -/
theorem stored_queue_error_loses_messages (k1 k2 : Nat)
    (mi1 : MessageInfo S M) (files : Files S M)
    (hk1 : k1 < 2 ^ 64) (hk2 : k2 < 2 ^ 64) (hne : k1 ≠ k2)
    (h1 : readFile files k1 = some (.encoded mi1))
    (h2 : readFile files k2 = some .corrupt) :
    (poll_messages ⟨some (u64ToBeBytes k1 ++ u64ToBeBytes k2), files⟩ none).1
        = .jsonError
    ∧ (poll_messages ⟨some (u64ToBeBytes k1 ++ u64ToBeBytes k2), files⟩ none).2.index
        = some (u64ToBeBytes k1 ++ u64ToBeBytes k2)
    ∧ readFile (poll_messages ⟨some (u64ToBeBytes k1 ++ u64ToBeBytes k2),
        files⟩ none).2.files k1 = none
    ∧ (poll_messages (poll_messages ⟨some (u64ToBeBytes k1 ++ u64ToBeBytes k2),
        files⟩ none).2 none).1 = .jsonError := by
  have hmod : (u64ToBeBytes k1 ++ u64ToBeBytes k2).length % 8 = 0 := by
    rw [List.length_append, u64ToBeBytes_length, u64ToBeBytes_length]
  have hb : (chunks8 (u64ToBeBytes k1 ++ u64ToBeBytes k2)).map u64FromBeBytes
      = [k1, k2] := by
    rw [chunks8_block _ _ (u64ToBeBytes_length k1),
        show u64ToBeBytes k2 = u64ToBeBytes k2 ++ [] from (List.append_nil _).symm,
        chunks8_block _ _ (u64ToBeBytes_length k2), chunks8_nil]
    simp [u64FromBeBytes_u64ToBeBytes k1 hk1, u64FromBeBytes_u64ToBeBytes k2 hk2]
  have h1' : readFile (removeFile files k1) k1 = none := by
    rw [readFile_removeFile]
    simp
  have h2' : readFile (removeFile files k1) k2 = some .corrupt := by
    rw [readFile_removeFile, if_neg (Ne.symm hne), h2]
  have hloop2 : pollLoop (removeFile files k1) [k2] (2 ^ 64 - 1 - 1)
      = (.jsonError, removeFile files k1) := by
    rw [pollLoop, if_neg (by omega), h2']
  have hloop : pollLoop files [k1, k2] (2 ^ 64 - 1)
      = (.jsonError, removeFile files k1) := by
    rw [pollLoop, if_neg (by omega), h1, hloop2]
  have hpoll : poll_messages ⟨some (u64ToBeBytes k1 ++ u64ToBeBytes k2), files⟩ none
      = (.jsonError,
         ⟨some (u64ToBeBytes k1 ++ u64ToBeBytes k2), removeFile files k1⟩) := by
    simp only [poll_messages, Option.getD_none, if_pos hmod]
    rw [hb, hloop]
  have hloop2b : pollLoop (removeFile files k1) [k2] (2 ^ 64 - 1)
      = (.jsonError, removeFile files k1) := by
    rw [pollLoop, if_neg (by omega), h2']
  have hloopb : pollLoop (removeFile files k1) [k1, k2] (2 ^ 64 - 1)
      = (.jsonError, removeFile files k1) := by
    rw [pollLoop, if_neg (by omega), h1', hloop2b]
  have hpollb : poll_messages
      ⟨some (u64ToBeBytes k1 ++ u64ToBeBytes k2), removeFile files k1⟩ none
      = (.jsonError,
         ⟨some (u64ToBeBytes k1 ++ u64ToBeBytes k2), removeFile files k1⟩) := by
    simp only [poll_messages, Option.getD_none, if_pos hmod]
    rw [hb, hloopb]
  rw [hpoll]
  refine ⟨rfl, rfl, h1', ?_⟩
  rw [hpollb]

/-- Closed instance of C9: files `{1 ↦ good, 2 ↦ corrupt}`, index `[1, 2]`. -/
theorem stored_queue_error_loses_messages_witness :
    (poll_messages (⟨some (u64ToBeBytes 1 ++ u64ToBeBytes 2),
        [((1 : Nat), FileData.encoded (⟨0, "c", 10, 100⟩ : MessageInfo Nat Nat)),
         (2, .corrupt)]⟩ : InboxDir Nat Nat) none).1 = .jsonError
    ∧ (poll_messages (⟨some (u64ToBeBytes 1 ++ u64ToBeBytes 2),
        [((1 : Nat), FileData.encoded (⟨0, "c", 10, 100⟩ : MessageInfo Nat Nat)),
         (2, .corrupt)]⟩ : InboxDir Nat Nat) none).2.index
      = some (u64ToBeBytes 1 ++ u64ToBeBytes 2)
    ∧ readFile (poll_messages (⟨some (u64ToBeBytes 1 ++ u64ToBeBytes 2),
        [((1 : Nat), FileData.encoded (⟨0, "c", 10, 100⟩ : MessageInfo Nat Nat)),
         (2, .corrupt)]⟩ : InboxDir Nat Nat) none).2.files 1 = none
    ∧ (poll_messages (poll_messages (⟨some (u64ToBeBytes 1 ++ u64ToBeBytes 2),
        [((1 : Nat), FileData.encoded (⟨0, "c", 10, 100⟩ : MessageInfo Nat Nat)),
         (2, .corrupt)]⟩ : InboxDir Nat Nat) none).2 none).1 = .jsonError := by
  exact stored_queue_error_loses_messages 1 2 ⟨0, "c", 10, 100⟩
    [(1, .encoded ⟨0, "c", 10, 100⟩), (2, .corrupt)]
    (by decide) (by decide) (by decide) (by decide) (by decide)

end Inbox

section AddressParsing

/-- `ClientType` from the REST API types: `{Thin, Thick, Server, File}`. -/
inductive ClientType where
  | Thin
  | Thick
  | Server
  | File
  deriving DecidableEq

variable {PK : Type}

/-- `Address` from `src/address.rs`, generic over the public-key type:
the crypto module is external to these sources, so the key type and its
base64 decoder are parameters of the model. -/
inductive Address (PK : Type) where
  | Hyperborea (public_key : PK) (client_type : ClientType)
  | Http (address : String)
  | Https (address : String)
  | Raw (address : String)
  deriving DecidableEq

/-- Rust's `str::split_once("://")`: the text before and after the first
occurrence of `"://"`, or `none` when it does not occur. -/
def splitScheme : List Char → Option (List Char × List Char)
  | ':' :: '/' :: '/' :: tail => some ([], tail)
  | c :: rest => (splitScheme rest).map (fun p => (c :: p.1, p.2))
  | [] => none

/-- Rust's `str::strip_prefix(tag)`: the remainder after `tag` when the
list starts with `tag`. -/
def dropTag (tag l : List Char) : Option (List Char) :=
  if tag.isPrefixOf l then some (l.drop tag.length) else none

/-- The `(protocol, address)` pair computed at the top of
`Address::from_str`: `address.split_once("://").unwrap_or(("", address))`. -/
def schemeSplit (addr : String) : List Char × List Char :=
  (splitScheme addr.toList).getD ([], addr.toList)

/-- `Address::from_str` from `src/address.rs`, parameterized by the
base64 public-key decoder `dec` (external crypto); `dec` returning `none`
models `PublicKey::from_base64` failing with a `CryptographyError`. -/
def Address.from_str (dec : String → Option PK) (addr : String) :
    Except Unit (Address PK) :=
  let protocol := (schemeSplit addr).1
  let address := (schemeSplit addr).2
  let key : List Char → ClientType → Except Unit (Address PK) := fun l ct =>
    match dec (String.mk l) with
    | some pk => .ok (.Hyperborea pk ct)
    | none => .error ()
  if protocol = "hyperborea".toList ∨ protocol = "hyp".toList then
    match dropTag "thin:".toList address with
    | some rest => key rest .Thin
    | none =>
      match dropTag "thick:".toList address with
      | some rest => key rest .Thick
      | none =>
        match dropTag "server:".toList address with
        | some rest => key rest .Server
        | none =>
          match dropTag "file:".toList address with
          | some rest => key rest .File
          | none => key address .Thin
  else if protocol = "hyperborea-client".toList ∨ protocol = "hyp-client".toList then
    key address .Thin
  else if protocol = "hyperborea-server".toList ∨ protocol = "hyp-server".toList then
    key address .Server
  else if protocol = "hyperborea-file".toList ∨ protocol = "hyp-file".toList then
    key address .File
  else if protocol = "http".toList then .ok (.Http (String.mk address))
  else if protocol = "https".toList then .ok (.Https (String.mk address))
  else .ok (.Raw (String.mk address))

/-- `parse` from `src/address.rs`: delegates to `Address::from_str`. -/
def parse (dec : String → Option PK) (uri : String) : Except Unit (Address PK) :=
  Address.from_str dec uri

/-- The schemes `Address::from_str` recognizes. -/
def recognizedSchemes : List (List Char) :=
  ["hyperborea".toList, "hyp".toList,
   "hyperborea-client".toList, "hyp-client".toList,
   "hyperborea-server".toList, "hyp-server".toList,
   "hyperborea-file".toList, "hyp-file".toList,
   "http".toList, "https".toList]

/-- C4 counterexample: the input `"a://b"` has the unrecognized scheme
`"a"`, yet `parse` returns `Raw("b")` — only the text after `"://"` —
and not the entire original input `"a://b"`. -/
theorem parse_raw_not_whole_input :
    parse (fun _ => (none : Option Nat)) "a://b" = Except.ok (Address.Raw "b")
    ∧ parse (fun _ => (none : Option Nat)) "a://b"
        ≠ Except.ok (Address.Raw "a://b") := by
  have hv : parse (fun _ => (none : Option Nat)) "a://b"
      = Except.ok (Address.Raw "b") := rfl
  refine ⟨hv, ?_⟩
  rw [hv]
  intro h
  have h2 : (Address.Raw "b" : Address Nat) = Address.Raw "a://b" := by
    injection h
  have h3 : ("b" : String) = "a://b" := by
    injection h2
  exact absurd h3 (by decide)

/-- C4 (amended): for every input whose scheme — the text before the
first `"://"`, or `""` when there is none — is unrecognized, `parse`
returns `Ok(Raw(r))` where `r` is the text after the first `"://"`, and
the entire original input when no `"://"` occurs. -/
theorem parse_unrecognized_scheme (dec : String → Option PK) (addr : String)
    (h : (schemeSplit addr).1 ∉ recognizedSchemes) :
    parse dec addr = Except.ok (Address.Raw (String.mk (schemeSplit addr).2)) := by
  have hne : ∀ s ∈ recognizedSchemes, (schemeSplit addr).1 ≠ s :=
    fun s hs hc => h (hc ▸ hs)
  have h1 : ¬((schemeSplit addr).1 = "hyperborea".toList
      ∨ (schemeSplit addr).1 = "hyp".toList) := by
    rintro (hc | hc)
    · exact hne _ (by simp [recognizedSchemes]) hc
    · exact hne _ (by simp [recognizedSchemes]) hc
  have h2 : ¬((schemeSplit addr).1 = "hyperborea-client".toList
      ∨ (schemeSplit addr).1 = "hyp-client".toList) := by
    rintro (hc | hc)
    · exact hne _ (by simp [recognizedSchemes]) hc
    · exact hne _ (by simp [recognizedSchemes]) hc
  have h3 : ¬((schemeSplit addr).1 = "hyperborea-server".toList
      ∨ (schemeSplit addr).1 = "hyp-server".toList) := by
    rintro (hc | hc)
    · exact hne _ (by simp [recognizedSchemes]) hc
    · exact hne _ (by simp [recognizedSchemes]) hc
  have h4 : ¬((schemeSplit addr).1 = "hyperborea-file".toList
      ∨ (schemeSplit addr).1 = "hyp-file".toList) := by
    rintro (hc | hc)
    · exact hne _ (by simp [recognizedSchemes]) hc
    · exact hne _ (by simp [recognizedSchemes]) hc
  have h5 : ¬((schemeSplit addr).1 = "http".toList) :=
    hne _ (by simp [recognizedSchemes])
  have h6 : ¬((schemeSplit addr).1 = "https".toList) :=
    hne _ (by simp [recognizedSchemes])
  simp only [parse, Address.from_str]
  rw [if_neg h1, if_neg h2, if_neg h3, if_neg h4, if_neg h5, if_neg h6]

/-- Closed instance of the amended C4: `parse("example.org")` (no `"://"`)
returns `Raw("example.org")`, the entire input. -/
theorem parse_unrecognized_scheme_witness :
    parse (fun _ => (none : Option Nat)) "example.org"
      = Except.ok (Address.Raw "example.org") :=
  parse_unrecognized_scheme (fun _ => none) "example.org" (by decide)

end AddressParsing

section LookupVerb

variable {C Srv : Type}

/-- The body the `POST /api/v1/lookup` handler answers with (success
cases and the stringified driver-error case). -/
inductive LookupOutcome (C Srv : Type) where
  | localBody (client : C) (available : Bool)
  | remoteBody (client : C) (server : Srv) (available : Bool)
  | hintBody (servers : List Srv)
  | serverError
  deriving DecidableEq

/-- The resolution cascade of the `POST /api/v1/lookup` handler in
`src/rest_api/middleware/server.rs` (after request validation), as a
function of the results of the three router calls it makes:
`lookup_local_client`, `lookup_remote_client`,
`lookup_remote_client_hint`. -/
def lookupHandler
    (localR : Except Unit (Option (C × Bool)))
    (remoteR : Except Unit (Option (C × Srv × Bool)))
    (hintR : Except Unit (List Srv)) : LookupOutcome C Srv :=
  match localR with
  | .error _ => .serverError
  | .ok (some (c, a)) => .localBody c a
  | .ok none =>
    match remoteR with
    | .error _ => .serverError
    | .ok (some (c, s, a)) => .remoteBody c s a
    | .ok none =>
      match hintR with
      | .ok servers => .hintBody servers
      | .error _ => .serverError

/-- C3 counterexample: when the local lookup yields a record with
`available = false` while the remote lookup yields one with
`available = true`, the handler still returns a `Local` body — it does
not fall through to the remote lookup. -/
theorem lookup_local_unavailable_no_fall_through :
    lookupHandler (Except.ok (some ((0 : Nat), false)))
        (Except.ok (some ((1 : Nat), (2 : Nat), true))) (Except.ok [])
      = .localBody 0 false
    ∧ LookupOutcome.localBody (0 : Nat) false
        ≠ LookupOutcome.remoteBody 1 (2 : Nat) true := by
  exact ⟨rfl, by decide⟩

/-- C3 (amended): the handler returns a `Local` body exactly when
`lookup_local_client` yields a record, carrying whatever availability
flag that call reported (even `false`); it falls through to
`lookup_remote_client` only when the local lookup yields no record,
returns `Remote` for any yielded remote record likewise, and computes a
`Hint` body from `lookup_remote_client_hint` only when both lookups
yield no record. -/
theorem lookup_cascade (localR : Except Unit (Option (C × Bool)))
    (remoteR : Except Unit (Option (C × Srv × Bool)))
    (hintR : Except Unit (List Srv)) :
    (∀ c a, localR = .ok (some (c, a)) →
      lookupHandler localR remoteR hintR = .localBody c a)
    ∧ (∀ c s a, localR = .ok none → remoteR = .ok (some (c, s, a)) →
      lookupHandler localR remoteR hintR = .remoteBody c s a)
    ∧ (∀ srvs, localR = .ok none → remoteR = .ok none → hintR = .ok srvs →
      lookupHandler localR remoteR hintR = .hintBody srvs) := by
  refine ⟨fun c a h => ?_, fun c s a h1 h2 => ?_, fun srvs h1 h2 h3 => ?_⟩
  · subst h
    rfl
  · subst h1
    subst h2
    rfl
  · subst h1
    subst h2
    subst h3
    rfl

/-- Closed instance of the amended C3: a record present locally with
`available = true` yields a `Local` body. -/
theorem lookup_cascade_witness :
    lookupHandler (Except.ok (some ((7 : Nat), true)))
        (Except.ok (none : Option (Nat × Nat × Bool))) (Except.ok [])
      = .localBody 7 true :=
  (lookup_cascade (.ok (some (7, true))) (.ok none) (.ok [])).1 7 true rfl

end LookupVerb

section NodeStandard

variable {K : Type}

/-- Interface of the external `k256::SecretKey` byte codec used by
`node::owned::Standard`: `toBytes` is `SecretKey::to_bytes` (the 33-byte
SEC1 secret encoding, per the spec's blob layout) and `fromSlice` is
`SecretKey::from_slice`.  The `k256` crate is external to the sources, so
it enters the model as this interface. -/
structure Sec1Codec (K : Type) where
  toBytes : K → List Nat
  fromSlice : List Nat → Except Unit K
  toBytes_length : ∀ k, (toBytes k).length = 33
  fromSlice_toBytes : ∀ k, fromSlice (toBytes k) = .ok k

/-- `node::owned::Standard` from `hyperborea/src/node/owned/standard.rs`
(with feature `node-v1`, its only variant). -/
inductive Standard (K : Type) where
  | V1 (secret_key : K)
  deriving DecidableEq

/-- `Standard::to_bytes`: a leading `0` version byte followed by the SEC1
secret-key bytes. -/
def Standard.to_bytes (c : Sec1Codec K) : Standard K → List Nat
  | .V1 secret_key => 0 :: c.toBytes secret_key

/-- Outcome of `Standard::from_bytes`: Rust's `bytes[0]` panics on an
empty slice; otherwise the function returns `anyhow::Result`. -/
inductive FromBytesResult (K : Type) where
  | panicked
  | err
  | ok (s : Standard K)
  deriving DecidableEq

/-- `Standard::from_bytes`: reads `bytes[0]` (panicking on empty input),
decodes the remainder as a SEC1 secret key when the version byte is `0`,
and errors on any other version byte or on a failing key decode. -/
def Standard.from_bytes (c : Sec1Codec K) (bytes : List Nat) :
    FromBytesResult K :=
  match bytes with
  | [] => .panicked
  | b :: rest =>
    if b = 0 then
      match c.fromSlice rest with
      | .ok sk => .ok (.V1 sk)
      | .error _ => .err
    else .err

/-- C6: for every `Standard::V1` value, `to_bytes` is the `0x00` version
byte followed by the 33-byte SEC1 secret (34 bytes total), and
`from_bytes` applied to it reconstructs an equal `Standard` value. -/
theorem standard_roundtrip (c : Sec1Codec K) (k : K) :
    (Standard.V1 k).to_bytes c = 0 :: c.toBytes k
    ∧ ((Standard.V1 k).to_bytes c).length = 34
    ∧ Standard.from_bytes c ((Standard.V1 k).to_bytes c) = .ok (.V1 k) := by
  refine ⟨rfl, ?_, ?_⟩
  · show (0 :: c.toBytes k).length = 34
    simp [c.toBytes_length k]
  · show Standard.from_bytes c (0 :: c.toBytes k) = .ok (.V1 k)
    simp [Standard.from_bytes, c.fromSlice_toBytes k]

/-- A toy SEC1 codec used to instantiate the `Standard` theorems on a
concrete input. -/
def unitCodec : Sec1Codec Unit where
  toBytes _ := List.replicate 33 7
  fromSlice l := if l = List.replicate 33 7 then .ok () else .error ()
  toBytes_length _ := by simp
  fromSlice_toBytes _ := by simp

/-- Closed instance of C6 at the toy codec. -/
theorem standard_roundtrip_witness :
    (Standard.V1 ()).to_bytes unitCodec = 0 :: unitCodec.toBytes ()
    ∧ ((Standard.V1 ()).to_bytes unitCodec).length = 34
    ∧ Standard.from_bytes unitCodec ((Standard.V1 ()).to_bytes unitCodec)
      = .ok (.V1 ()) :=
  standard_roundtrip unitCodec ()

/-- C10: `Standard::from_bytes` indexes `bytes[0]` without a length
check, so it panics on empty input; and for every non-empty input whose
first byte is not the supported version `0`, it returns an error rather
than a value. -/
theorem standard_from_bytes_unchecked (c : Sec1Codec K) (b : Nat)
    (rest : List Nat) (hb : b ≠ 0) :
    Standard.from_bytes c ([] : List Nat) = .panicked
    ∧ Standard.from_bytes c (b :: rest) = .err := by
  refine ⟨rfl, ?_⟩
  simp [Standard.from_bytes, hb]

/-- Closed instance of C10: empty input and version byte `5`. -/
theorem standard_from_bytes_unchecked_witness :
    Standard.from_bytes unitCodec ([] : List Nat) = .panicked
    ∧ Standard.from_bytes unitCodec [5] = .err :=
  standard_from_bytes_unchecked unitCodec 5 [] (by decide)

end NodeStandard

section Envelope

/-- Modelled from the spec: the crypto `PublicKey` (the crypto module is
not among the sources). -/
structure PublicKey where
  key : Nat
  deriving DecidableEq

/-- Modelled from the spec: the crypto `SecretKey`, held only by its
owner. -/
structure SecretKey where
  key : Nat
  deriving DecidableEq

/-- Modelled from the spec: the public key derived from a secret key. -/
def SecretKey.public_key (sk : SecretKey) : PublicKey := ⟨sk.key⟩

/-- Modelled from the spec: signatures, idealized as the signer's public
key paired with the signed message — a signature made by
`create_signature` verifies under the signer's public key over the same
message, and no other `(key, message)` pair accepts it. -/
structure Signature where
  signer : PublicKey
  data : List Nat
  deriving DecidableEq

/-- Modelled from the spec: `SecretKey::create_signature`. -/
def SecretKey.create_signature (sk : SecretKey) (msg : List Nat) : Signature :=
  ⟨sk.public_key, msg⟩

/-- Modelled from the spec: signature verification under a public key. -/
def PublicKey.verifySign (pk : PublicKey) (sig : Signature)
    (msg : List Nat) : Bool :=
  decide (sig.signer = pk ∧ sig.data = msg)

/-- `ResponseStatus` (the variants the middleware uses). -/
inductive ResponseStatus where
  | Success
  | RequestValidationFailed
  | ServerError
  deriving DecidableEq

/-- Modelled from the spec: the generic signed `Response<B>` envelope
(`hyperborealib`'s `rest_api/response.rs` is not among the sources).
`Response::success` carries status, responder public key, `proof_sign`
and a body; `Response::error` carries status and reason. -/
inductive Response (B : Type) where
  | success (status : ResponseStatus) (public_key : PublicKey)
      (proof_sign : Signature) (response : B)
  | error (status : ResponseStatus) (reason : String)
  deriving DecidableEq

/-- Modelled from the spec: `Response::validate(proof_seed)` holds iff
`proof_sign` verifies the 8 big-endian bytes of the seed under the
response's `public_key`; an error response carries no proof. -/
def Response.validate {B : Type} : Response B → Nat → Bool
  | .success _ pk sign _, seed => pk.verifySign sign (u64ToBeBytes seed)
  | .error _ _, _ => false

/-- `DisconnectResponseBody` (`disconnect/response.rs`): an empty body. -/
structure DisconnectResponseBody where
  deriving DecidableEq

/-- `DisconnectResponse::success` from
`src/rest_api/requests/disconnect/mod.rs`: signs the 8 big-endian bytes
of the proof seed with the server secret key and wraps them in a success
envelope under the server's public key. -/
def DisconnectResponse.success (status : ResponseStatus)
    (server_secret : SecretKey) (proof_seed : Nat) :
    Response DisconnectResponseBody :=
  .success status server_secret.public_key
    (server_secret.create_signature (u64ToBeBytes proof_seed))
    ⟨⟩

/-- `DisconnectResponse::validate` from
`src/rest_api/requests/disconnect/mod.rs`: delegates to
`Response::validate`. -/
def DisconnectResponse.validate (r : Response DisconnectResponseBody)
    (proof_seed : Nat) : Bool :=
  r.validate proof_seed

/-- Replace the `proof_sign` of a response, modelling a mutation of its
signature bits. -/
def Response.withSign {B : Type} : Response B → Signature → Response B
  | .success st pk _ b, sig => .success st pk sig b
  | .error st r, _ => .error st r

/-- C7: `DisconnectResponse::success(status, sk, seed).validate(seed)` is
true; a success response validates iff its `proof_sign` verifies the 8
big-endian bytes of the seed under its `public_key`; and replacing
`proof_sign` by any different signature (in particular one differing in a
single bit) makes `validate` return false. -/
theorem disconnect_response_validate (status : ResponseStatus)
    (sk : SecretKey) (seed : Nat) (sig' : Signature)
    (st2 : ResponseStatus) (pk : PublicKey) (sig : Signature)
    (b : DisconnectResponseBody) :
    DisconnectResponse.validate (DisconnectResponse.success status sk seed) seed
        = true
    ∧ (DisconnectResponse.validate (Response.success st2 pk sig b) seed = true
        ↔ pk.verifySign sig (u64ToBeBytes seed) = true)
    ∧ (sig' ≠ sk.create_signature (u64ToBeBytes seed) →
        DisconnectResponse.validate
          ((DisconnectResponse.success status sk seed).withSign sig') seed
          = false) := by
  refine ⟨?_, Iff.rfl, fun hne => ?_⟩
  · simp [DisconnectResponse.validate, DisconnectResponse.success,
      Response.validate, PublicKey.verifySign, SecretKey.create_signature]
  · simp only [DisconnectResponse.validate, DisconnectResponse.success,
      Response.withSign, Response.validate, PublicKey.verifySign,
      decide_eq_false_iff_not]
    intro hc
    apply hne
    obtain ⟨hs, hd⟩ := hc
    cases sig'
    simp only [SecretKey.create_signature] at hs hd ⊢
    rw [hs, hd]

/-- Closed instance of C7: secret key `1`, seed `5`, and a mutated
signature. -/
theorem disconnect_response_validate_witness :
    DisconnectResponse.validate
        (DisconnectResponse.success .Success ⟨1⟩ 5) 5 = true
    ∧ DisconnectResponse.validate
        ((DisconnectResponse.success .Success ⟨1⟩ 5).withSign ⟨⟨2⟩, []⟩) 5
        = false := by
  have h := disconnect_response_validate .Success ⟨1⟩ 5 ⟨⟨2⟩, []⟩ .Success ⟨1⟩
    ⟨⟨1⟩, u64ToBeBytes 5⟩ ⟨⟩
  exact ⟨h.1, h.2.2 (by decide)⟩

end Envelope

end Hyperborealib
